import Mathlib

/-!
Shallow embedding of the cmux connection multiplexer (soheilhy/cmux):
the patricia-tree matcher (patricia.go), the sniffing connection and
dispatch loop (cmux.go), the replay buffer (modelled from the spec; its
source file is not part of the staged sources, only its tests and its
callers are), and the proxy-protocol header extractor.  Bytes are
modelled as Nat, byte slices as List Nat, Go maps as association lists
looked up by key, and a Go panic (index out of range) as Option.none.
-/

namespace CmuxV

/-- A byte, as Go's byte. -/
abbrev Byte := Nat

/-- ptNode from patricia.go: a node of the immutable patricia tree.
Go field `prefix` is `pfx` here (Lean keyword). -/
inductive PTNode : Type where
  | mk (pfx : List Byte) (terminal : Bool) (next : List (Byte × PTNode)) : PTNode

/-- The node's common-prefix byte slice (Go field `prefix`). -/
def PTNode.pfx : PTNode → List Byte
  | .mk p _ _ => p

/-- The node's terminal flag. -/
def PTNode.terminal : PTNode → Bool
  | .mk _ t _ => t

/-- The node's child-edge map (Go field `next`, a map byte → child). -/
def PTNode.next : PTNode → List (Byte × PTNode)
  | .mk _ _ nx => nx

/-- Lookup in an association list modelling a Go map (`n.next[b]`). -/
def lookupA (c : Byte) : List (Byte × PTNode) → Option PTNode
  | [] => none
  | (k, v) :: rest => if k = c then some v else lookupA c rest

/-- One iteration of the splitPrefix scan loop of patricia.go: at column `i`,
Go checks that every string is longer than `i` and agrees with `bss[0]` at
`i`; `some cur` is the shared byte, `none` means the loop breaks. -/
def stepEq (bss : List (List Byte)) (i : Nat) : Option Byte :=
  match bss with
  | [] => none
  | b0 :: rest =>
    match b0.get? i with
    | none => none
    | some cur =>
      if rest.all (fun b => decide (i < b.length) && (b.getD i 0 == cur))
      then some cur else none

/-- The splitPrefix scan loop, gathering the shared bytes column by column.
The fuel argument only bounds the iteration count; the loop stops by itself
once column `i` reaches the length of the first string. -/
def splitPrefixLoop (bss : List (List Byte)) : Nat → Nat → List Byte
  | _, 0 => []
  | i, fuel + 1 =>
    match stepEq bss i with
    | none => []
    | some cur => cur :: splitPrefixLoop bss (i + 1) fuel

/-- splitPrefix from patricia.go: the longest shared leading byte sequence
and the strings with that prefix removed. -/
def splitPrefix (bss : List (List Byte)) : List Byte × List (List Byte) :=
  if bss.length = 0 || (bss.headD []).length = 0 then ([], bss)
  else if bss.length = 1 then (bss.headD [], [[]])
  else
    let p := splitPrefixLoop bss 0 ((bss.headD []).length + 1)
    (p, bss.map (fun b => b.drop p.length))

/-- The strings of `strs` whose first byte is `c`, with that byte removed:
the group `nexts[c]` that newNode builds (order preserved, empty strings
skipped as in the Go loop). -/
def group (c : Byte) (strs : List (List Byte)) : List (List Byte) :=
  (strs.filter (fun s => s.head? == some c)).map List.tail

/-- The distinct first bytes of `strs`: the key set of the Go map `nexts`. -/
def firstKeys (strs : List (List Byte)) : List Byte :=
  (strs.filterMap List.head?).dedup

/-- newNode from patricia.go, with fuel making the recursion structural
(the fuel chosen by `newNode` below provably never runs out: each child
group is strictly smaller by `measureStrs`).  The Go map `nexts` is built
here as one association-list entry per distinct first byte, each mapped to
the recursively built child. -/
def newNodeF : Nat → List (List Byte) → PTNode
  | 0, _ => .mk [] false []
  | fuel + 1, strs =>
    if strs.length = 0 then .mk [] true []
    else if strs.length = 1 then .mk (strs.headD []) true []
    else
      let p := (splitPrefix strs).1
      let strs2 := (splitPrefix strs).2
      .mk p (strs2.any List.isEmpty)
        ((firstKeys strs2).map (fun c => (c, newNodeF fuel (group c strs2))))

/-- Termination measure: total length of the strings plus one per string. -/
def measureStrs (strs : List (List Byte)) : Nat :=
  (strs.map (fun s => s.length + 1)).sum

/-- newNode from patricia.go. -/
def newNode (strs : List (List Byte)) : PTNode :=
  newNodeF (measureStrs strs + 1) strs

/-- patriciaTree from patricia.go: the root and the length of the
preallocated scratch buffer mu.buf (longest input string + 1). -/
structure patriciaTree where
  root : PTNode
  bufLen : Nat

/-- newPatriciaTree from patricia.go. -/
def newPatriciaTree (bs : List (List Byte)) : patriciaTree :=
  let mx := bs.foldl (fun mx b => if mx < b.length then b.length else mx) 0
  ⟨newNode bs, mx + 1⟩

/-- ptNode.match from patricia.go, with fuel making the recursion
structural (each descent strictly shortens `b`, so the fuel chosen by
`ptMatch` below never runs out on a live path).  `none` models the Go
runtime panic: `n.next[b[l]]` indexes position `l = len(b)`, out of
range, exactly when `b.get? l` is `none` here. -/
def ptMatchF : Nat → PTNode → List Byte → Bool → Option Bool
  | 0, _, _, _ => none
  | fuel + 1, n, b, prefixOnly =>
    let l := if n.pfx.length > b.length then b.length else n.pfx.length
    if n.pfx.length > 0 && !(b.take l == n.pfx) then some false
    else if n.terminal && (prefixOnly || n.pfx.length == b.length) then some true
    else
      match b.get? l with
      | none => none
      | some c =>
        match lookupA c n.next with
        | none => some false
        | some nextN =>
          ptMatchF fuel nextN (if l == b.length then [] else b.drop (l + 1)) prefixOnly

/-- ptNode.match from patricia.go (`some` result; `none` is the panic). -/
def ptMatch (n : PTNode) (b : List Byte) (prefixOnly : Bool) : Option Bool :=
  ptMatchF (b.length + 1) n b prefixOnly

/-- patriciaTree.matchPrefix from patricia.go: io.ReadFull reads at most
bufLen bytes of the stream into the scratch buffer, then the trie walk
runs in prefix-only mode. -/
def patriciaTree.matchPrefix (t : patriciaTree) (stream : List Byte) : Option Bool :=
  ptMatch t.root (stream.take t.bufLen) true

/-- patriciaTree.match from patricia.go (full, exact mode; named
matchExact because `match` is a Lean keyword). -/
def patriciaTree.matchExact (t : patriciaTree) (stream : List Byte) : Option Bool :=
  ptMatch t.root (stream.take t.bufLen) false

/-- The bytes of a string literal, as Go []byte(s) for ASCII content. -/
def strBytes (s : String) : List Byte :=
  s.toList.map Char.toNat

/-- Modelled from the spec: the replay-store type `buffer` used by MuxConn
in cmux.go is not among the staged source files (only its tests in
buffer_test.go and its callers are).  Per spec section 4.1 it is an
append-only byte store with an independent read cursor. -/
structure buffer where
  data : List Byte
  read : Nat

/-- Modelled from the spec: buffer.Read copies up to `k` bytes starting at
the read cursor, advances the cursor by the amount copied, and reports
end-of-data (io.EOF) in the same call once the cursor reaches the write
cursor.  Returns (bytes copied, new state, EOF flag). -/
def buffer.Read (b : buffer) (k : Nat) : List Byte × buffer × Bool :=
  let chunk := (b.data.drop b.read).take k
  let r2 := b.read + chunk.length
  (chunk, ⟨b.data, r2⟩, r2 == b.data.length)

/-- Modelled from the spec: buffer.Write appends a copy of the bytes to
the store (it always succeeds). -/
def buffer.Write (b : buffer) (p : List Byte) : buffer :=
  ⟨b.data ++ p, b.read⟩

/-- Modelled from the spec: buffer.resetRead rewinds the read cursor to 0
and leaves the store untouched. -/
def buffer.resetRead (b : buffer) : buffer :=
  ⟨b.data, 0⟩

/-- MuxConn from cmux.go: the wrapped raw connection is modelled as the
finite byte stream it will ever produce (`stream`) plus the count of bytes
already consumed from it (`pos`); `remote` is the peer address string. -/
structure MuxConn where
  stream : List Byte
  pos : Nat
  buf : buffer
  remote : String

/-- newMuxConn from cmux.go: a fresh MuxConn with an empty buffer. -/
def newMuxConn (stream : List Byte) (remote : String) : MuxConn :=
  ⟨stream, 0, ⟨[], 0⟩, remote⟩

/-- One Read call on the embedded raw connection: returns up to `k` of the
not-yet-consumed bytes, and the io.EOF flag (an empty read at the end of
the stream). -/
def MuxConn.connRead (m : MuxConn) (k : Nat) : List Byte × MuxConn × Bool :=
  let chunk := (m.stream.drop m.pos).take k
  (chunk, { m with pos := m.pos + chunk.length },
   chunk.length == 0)

/-- MuxConn.Read from cmux.go: drain the replay buffer first; if that call
returned fewer bytes than requested together with io.EOF, continue into
the raw connection within the same call. -/
def MuxConn.Read (m : MuxConn) (k : Nat) : List Byte × MuxConn × Bool :=
  let r1 := m.buf.Read k
  if r1.1.length == k || !r1.2.2 then (r1.1, { m with buf := r1.2.1 }, r1.2.2)
  else
    let r2 := MuxConn.connRead { m with buf := r1.2.1 } (k - r1.1.length)
    (r1.1 ++ r2.1, r2.2.1, r2.2.2)

/-- MuxConn.reset from cmux.go: rewind the buffer's read cursor. -/
def MuxConn.reset (m : MuxConn) : MuxConn :=
  { m with buf := m.buf.resetRead }

/-- The sniffing view handed to a matcher,
io.MultiReader(buffer, io.TeeReader(Conn, buffer)) from MuxConn.sniffer:
`popped` records that the MultiReader has moved past the buffer reader. -/
structure Sniffer where
  mc : MuxConn
  popped : Bool

/-- MuxConn.sniffer from cmux.go: a fresh MultiReader over the buffer and
the teed connection. -/
def MuxConn.sniffer (m : MuxConn) : Sniffer :=
  ⟨m, false⟩

/-- One Read call on the sniffing view: while the buffer reader is live and
holds unread bytes it replays them (the MultiReader pops it on its same-call
io.EOF); afterwards bytes come from the raw connection and are teed into
the buffer. -/
def Sniffer.Read (s : Sniffer) (k : Nat) : List Byte × Sniffer :=
  if !s.popped && s.mc.buf.read < s.mc.buf.data.length then
    let r := s.mc.buf.Read k
    (r.1, ⟨{ s.mc with buf := r.2.1 }, r.2.2⟩)
  else
    let chunk := (s.mc.stream.drop s.mc.pos).take k
    (chunk,
     ⟨{ s.mc with pos := s.mc.pos + chunk.length, buf := s.mc.buf.Write chunk },
      true⟩)

/-- The Read calls `ks` of one matcher, issued in order against one
sniffer view: the concatenation of the chunks the matcher saw, and the
final view. -/
def sniffCallsGo (s : Sniffer) : List Nat → List Byte × Sniffer
  | [] => ([], s)
  | k :: ks =>
    let r := s.Read k
    let rest := sniffCallsGo r.2 ks
    (r.1 ++ rest.1, rest.2)

/-- A whole sniffing session: the matcher issues the Read calls `ks` in
order against one sniffer view and sees the concatenation of the chunks;
the final MuxConn state is kept, the view is discarded. -/
def sniffCalls (m : MuxConn) (ks : List Nat) : List Byte × MuxConn :=
  let out := sniffCallsGo m.sniffer ks
  (out.1, out.2.mc)

/-- The effect of a matcher that reads `budget` bytes from its sniffing
view with io.ReadFull (replay the unread buffered bytes, then read the
missing amount from the raw connection, teeing it into the buffer): the
closed form of iterating Sniffer.Read until `budget` bytes or end of
stream. -/
def sniffFull (m : MuxConn) (budget : Nat) : List Byte × MuxConn :=
  let replay := (m.buf.data.drop m.buf.read).take budget
  let fresh := (m.stream.drop m.pos).take (budget - replay.length)
  (replay ++ fresh,
   { m with pos := m.pos + fresh.length,
            buf := ⟨m.buf.data ++ fresh, m.buf.read + replay.length⟩ })

/-- An error value as cmux sees one: whether it implements net.Error, its
Temporary() and Timeout() answers, and its message. -/
structure ErrM where
  isNet : Bool
  temporary : Bool
  timeout : Bool
  msg : String

/-- ErrNotMatched from cmux.go: a net.Error whose Temporary() is true and
Timeout() is false, and whose message carries the connection's remote
address. -/
def errNotMatched (remote : String) : ErrM :=
  ⟨true, true, false,
   "mux: connection " ++ remote ++ " not matched by an matcher"⟩

/-- cMux.handleErr from cmux.go: the installed handler is consulted first;
a refusal is final; otherwise only a temporary net.Error lets the mux
continue. -/
def handleErr (errh : ErrM → Bool) (e : ErrM) : Bool :=
  if !(errh e) then false
  else if e.isNet then e.temporary
  else false

/-- The accept-error arm of cMux.Serve from cmux.go: `none` means the loop
continues accepting, `some e` means Serve stops and returns `e`. -/
def serveOnAcceptError (errh : ErrM → Bool) (e : ErrM) : Option ErrM :=
  if handleErr errh e then none else some e

/-- A content matcher as the dispatch loop uses one: it reads up to
`budget` bytes of the connection's leading bytes through io.ReadFull on
its sniffing view and decides from what it saw. -/
structure MatcherM where
  budget : Nat
  pred : List Byte → Bool

/-- Whether a matcher accepts a raw stream: the decision on the (replayed)
prefix it reads. -/
def MatcherM.accepts (mt : MatcherM) (stream : List Byte) : Bool :=
  mt.pred (stream.take mt.budget)

/-- The observable outcome of cMux.serve on one connection. -/
structure ServeOutcome where
  /-- The route queue (by registration index) that received the connection,
  with the connection state at hand-off, if any matcher succeeded. -/
  delivered : Option (Nat × MuxConn)
  /-- Whether the worker closed the raw connection. -/
  connClosed : Bool
  /-- Whether the worker closed the root listener. -/
  rootClosed : Bool
  /-- The error the worker reported to the error-handling policy, if any. -/
  reported : Option ErrM
  /-- Ghost observation: the byte view each invoked matcher received, in
  invocation order. -/
  views : List (List Byte)

/-- The inner matcher loop of cMux.serve over one route's matchers:
invoke each matcher on a fresh sniffing view, always reset afterwards,
stop at the first success. -/
def serveRoute (ms : List MatcherM) (m : MuxConn) :
    Option MuxConn × MuxConn × List (List Byte) :=
  match ms with
  | [] => (none, m, [])
  | mt :: rest =>
    let r := sniffFull m mt.budget
    let matched := mt.pred r.1
    let m2 := r.2.reset
    if matched then (some m2, m2, [r.1])
    else
      let rec2 := serveRoute rest m2
      (rec2.1, rec2.2.1, r.1 :: rec2.2.2)

/-- cMux.serve from cmux.go: routes are tried in registration order,
matchers in registration order within a route; the first success hands the
connection to that route's queue; if nothing matches, the connection is
closed, ErrNotMatched is reported to the policy through handleErr, and a
refusal makes the worker close the root listener. -/
def serveConn (routes : List (List MatcherM)) (errh : ErrM → Bool)
    (m : MuxConn) : ServeOutcome :=
  match routes with
  | [] =>
    { delivered := none, connClosed := true,
      rootClosed := !(handleErr errh (errNotMatched m.remote)),
      reported := some (errNotMatched m.remote), views := [] }
  | r :: rest =>
    let a := serveRoute r m
    match a.1 with
    | some mc =>
      { delivered := some (0, mc), connClosed := false, rootClosed := false,
        reported := none, views := a.2.2 }
    | none =>
      let o := serveConn rest errh a.2.1
      { o with delivered := o.delivered.map (fun p => (p.1 + 1, p.2)),
               views := a.2.2 ++ o.views }

/-- Repeated downstream reads of `k` bytes each through MuxConn.Read,
collecting everything until a read returns no bytes together with io.EOF
(fuel-structured; `drainAll` supplies provably sufficient fuel). -/
def drainF : Nat → MuxConn → Nat → List Byte
  | 0, _, _ => []
  | fuel + 1, m, k =>
    let r := MuxConn.Read m k
    if r.1.length == 0 then []
    else r.1 ++ drainF fuel r.2.1 k

/-- All bytes a downstream owner reads from the connection, `k` bytes per
Read call. -/
def drainAll (m : MuxConn) (k : Nat) : List Byte :=
  drainF (m.buf.data.length + m.stream.length + 1) m k

/-- The connection state after a sequence of matchers sniffed it, each with
its own view and read calls, each followed by MuxConn.reset as in
cMux.serve. -/
def sniffMany (sessions : List (List Nat)) (m : MuxConn) : MuxConn :=
  sessions.foldl (fun m ks => ((sniffCalls m ks).2).reset) m

/-- The root listener and the per-route accept queues of a cMux, for the
listener-close model: Match gives every child listener the root as its
embedded net.Listener and a fresh open queue. -/
structure MuxSt where
  rootClosed : Bool
  queuesClosed : List Bool

/-- cMux.Match from cmux.go: register one more route; its muxListener
embeds the shared root listener and a fresh queue. -/
def matchOp (st : MuxSt) : MuxSt :=
  { st with queuesClosed := st.queuesClosed ++ [false] }

/-- Close on a muxListener returned by Match: muxListener declares no
Close of its own, so Go method promotion forwards the call to the
embedded net.Listener, which Match set to the mux's root listener; the
route's own queue is untouched (queues are closed only when Serve
returns). -/
def muxListenerClose (st : MuxSt) : MuxSt :=
  { st with rootClosed := true }

/-- defaultBufSize from the proxy-protocol source file. -/
def defaultBufSize : Nat := 1024

/-- The literal tag checked at the start of a connection for the proxy
protocol ("PROXY "). -/
def proxyTag : List Char := "PROXY ".toList

/-- prefixLen from the proxy-protocol source file. -/
def proxyTagLen : Nat := proxyTag.length

/-- Outcome of the incremental byte-by-byte check of the proxy tag. -/
inductive ScanRes : Type where
  | header
  | mismatch
  | peekErr
deriving DecidableEq

/-- The incremental tag check of MuxConn.checkPrefix: for i = 1..prefixLen,
Peek(i) (an error when fewer than i bytes were read) and compare against
the first i tag bytes, bailing out at the first mismatch.  `rem` counts the
iterations left, so the call starts at i = 1, rem = prefixLen. -/
def scanTag (avail : List Char) : Nat → Nat → ScanRes
  | _, 0 => .header
  | i, rem + 1 =>
    if avail.length < i then .peekErr
    else if avail.take i = proxyTag.take i then scanTag avail (i + 1) rem
    else .mismatch

/-- bufio.Reader.ReadString for the delimiter newline: everything up to and
including the first newline, or an error when none is buffered. -/
def readLine (avail : List Char) : Option (List Char) :=
  let pre := avail.takeWhile (fun c => !(c == '\n'))
  if pre.length == avail.length then none else some (pre ++ ['\n'])

/-- strings.Split on a single space. -/
def splitSp : List Char → List (List Char)
  | [] => [[]]
  | c :: rest =>
    let r := splitSp rest
    if c = ' ' then [] :: r
    else (c :: r.headD []) :: r.tail

/-- strconv.Atoi on a decimal digit string (the subset the proxy header
uses; an error is `none`). -/
def atoiDec (cs : List Char) : Option Nat :=
  if cs.isEmpty || !(cs.all Char.isDigit) then none
  else some (cs.foldl (fun a c => 10 * a + (c.toNat - 48)) 0)

/-- net.ParseIP restricted to IPv4 dotted-quad literals, the form the C9
inputs use (other syntactic forms are treated as invalid here). -/
def parseIP4 (cs : List Char) : Option (List Char) :=
  let parts := (cs.map (fun c => if c = '.' then ' ' else c)) |> splitSp
  if parts.length == 4
     && parts.all (fun p => !p.isEmpty && p.all Char.isDigit
                            && (atoiDec p).getD 256 < 256)
  then some cs else none

/-- A resolved proxy-protocol address: the IP literal plus the port. -/
structure TCPAddr where
  ip : List Char
  port : Nat
deriving DecidableEq

/-- The ip:port string an address renders to. -/
def TCPAddr.str (a : TCPAddr) : List Char :=
  a.ip ++ ':' :: Nat.toDigits 10 a.port

/-- Equality of Except results is decidable componentwise. -/
instance {ε α : Type} [DecidableEq ε] [DecidableEq α] : DecidableEq (Except ε α) :=
  fun x y =>
  match x, y with
  | .error a, .error b =>
    if h : a = b then .isTrue (by rw [h])
    else .isFalse (by intro hh; cases hh; exact h rfl)
  | .ok a, .ok b =>
    if h : a = b then .isTrue (by rw [h])
    else .isFalse (by intro hh; cases hh; exact h rfl)
  | .error _, .ok _ => .isFalse (by intro hh; cases hh)
  | .ok _, .error _ => .isFalse (by intro hh; cases hh)

/-- MuxConn.checkPrefix from the proxy-protocol source file, as a function
of the leading bytes one m.Read call returns (the input clipped to
defaultBufSize).  The result carries the source/destination address
overrides and the bytes written back into the connection's buffer for
subsequent readers; `Except.error` is a returned error. -/
def checkPrefix (input : List Char) :
    Except String (Option TCPAddr × Option TCPAddr × List Char) :=
  let buf := input.take defaultBufSize
  match scanTag buf 1 proxyTagLen with
  | .peekErr => .error "EOF"
  | .mismatch => .ok (none, none, buf)
  | .header =>
    match readLine buf with
    | none => .error "EOF"
    | some headerLine =>
      let header := headerLine.take (headerLine.length - 2)
      let parts := splitSp header
      if parts.length < 2 then .error "invalid header line"
      else if parts.getD 1 [] = "UNKNOWN".toList then .ok (none, none, [])
      else if !(parts.getD 1 [] = "TCP4".toList)
              && !(parts.getD 1 [] = "TCP6".toList) then
        .error "unhandled address type"
      else if !(parts.length = 6) then .error "invalid header line"
      else
        match parseIP4 (parts.getD 2 []), atoiDec (parts.getD 4 []) with
        | some sip, some sport =>
          match parseIP4 (parts.getD 3 []), atoiDec (parts.getD 5 []) with
          | some dip, some dport =>
            .ok (some ⟨sip, sport⟩, some ⟨dip, dport⟩,
              if !(buf.length = headerLine.length)
              then buf.drop headerLine.length else [])
          | _, _ => .error "invalid destination address"
        | _, _ => .error "invalid source address"

/-- MuxConn.RemoteAddr from the proxy-protocol source file: the parsed
source address when one was set, else the raw connection's remote
address. -/
def remoteAddrP (srcAddr : Option TCPAddr) (connRemote : List Char) : List Char :=
  match srcAddr with
  | some a => a.str
  | none => connRemote

/-- MuxConn.LocalAddr from the proxy-protocol source file. -/
def localAddrP (dstAddr : Option TCPAddr) (connLocal : List Char) : List Char :=
  match dstAddr with
  | some a => a.str
  | none => connLocal

/-- The patricia tree built from the candidate set of the spec's
exactness example. -/
def c1Tree : patriciaTree :=
  newPatriciaTree [strBytes "GET ", strBytes "POST", strBytes "PUT "]

/-- A mux with the root listener open and no route yet. -/
def mux0 : MuxSt := ⟨false, []⟩

/-- Structural equivalence of patricia trees: same node prefix, same
terminal flag, and at every byte the same child-edge presence with
structurally equivalent children. -/
inductive PTEquiv : PTNode → PTNode → Prop where
  | mk (p : List Byte) (t : Bool) (n1 n2 : List (Byte × PTNode))
      (hdom : ∀ c, (lookupA c n1).isSome = (lookupA c n2).isSome)
      (hchild : ∀ c x y, lookupA c n1 = some x → lookupA c n2 = some y → PTEquiv x y) :
      PTEquiv (.mk p t n1) (.mk p t n2)

/-- The dispatch-state invariant: the raw stream and peer are fixed, the
replay buffer holds exactly the consumed stream prefix, and the read
cursor is rewound. -/
def Inv (S : List Byte) (remote : String) (m : MuxConn) : Prop :=
  m.stream = S ∧ m.remote = remote ∧ m.buf.data = S.take m.pos ∧
  m.pos ≤ S.length ∧ m.buf.read = 0

/-- The weaker invariant holding between the read calls of one sniffing
session (the read cursor may sit anywhere inside the store). -/
def WInv (S : List Byte) (m : MuxConn) : Prop :=
  m.stream = S ∧ m.buf.data = S.take m.pos ∧
  m.pos ≤ S.length ∧ m.buf.read ≤ m.buf.data.length

/-- The matchers of one route the dispatch loop invokes: every matcher up
to and including the first accepting one. -/
def invokedInRoute (ms : List MatcherM) (S : List Byte) : List MatcherM :=
  match ms with
  | [] => []
  | mt :: rest =>
    if mt.accepts S then [mt] else mt :: invokedInRoute rest S

/-- All matchers the dispatch loop invokes across the route table: whole
routes before the first accepting route, then that route's matchers up to
its first accepting one. -/
def invokedMs : List (List MatcherM) → List Byte → List MatcherM
  | [], _ => []
  | r :: rest, S =>
    if r.any (fun mt => mt.accepts S) then invokedInRoute r S
    else r ++ invokedMs rest S

/-! ## Theorems -/

/-- C1 counterexample: against the matcher built from
{"GET ", "POST", "PUT "}, the stream "GET /x" fails in full mode (the
scratch buffer reads maxlen+1 = 5 bytes, "GET /", which is no exact
member of the set), and the stream "GE" fails in prefix mode (the walk
compares the clipped slice against the whole node prefix "ET "), so the
claim's success assertions for those two cases are both false. -/
theorem c1_counterexample :
    c1Tree.matchExact (strBytes "GET /x") = some false ∧
    c1Tree.matchPrefix (strBytes "GE") = some false := by
  decide

/-- C1 (amended): for the matcher built from {"GET ", "POST", "PUT "}, a
stream whose available bytes begin with "GET /x" succeeds in prefix mode
but fails in full mode; the stream "GE" (then end of stream) fails in
both prefix and full mode; the stream "XYZ" fails in both modes. -/
theorem c1_patricia_exactness (rest : List Byte) :
    c1Tree.matchPrefix (strBytes "GET /x" ++ rest) = some true ∧
    c1Tree.matchExact (strBytes "GET /x" ++ rest) = some false ∧
    c1Tree.matchPrefix (strBytes "GE") = some false ∧
    c1Tree.matchExact (strBytes "GE") = some false ∧
    c1Tree.matchPrefix (strBytes "XYZ") = some false ∧
    c1Tree.matchExact (strBytes "XYZ") = some false := by
  refine ⟨rfl, rfl, ?_, ?_, ?_, ?_⟩ <;> decide

/-- C10: ptNode.match is not total — on the empty stream and on the
one-byte stream "P" against the {"GET ", "POST", "PUT "} matcher, every
available byte is consumed at a non-accepted node and the child-map
lookup indexes one past the end of the slice, so the total embedding
returns none (the Go code panics with index out of range) in both prefix
and full mode. -/
theorem c10_match_partiality :
    c1Tree.matchPrefix (strBytes "") = none ∧
    c1Tree.matchExact (strBytes "") = none ∧
    c1Tree.matchPrefix (strBytes "P") = none ∧
    c1Tree.matchExact (strBytes "P") = none := by
  decide

/-- C5 counterexample: starting from a mux whose root listener is open,
registering one route and then calling Close on the returned child
listener leaves the root listener closed — the claim that the root
listener's state is unchanged by the child's Close is false. -/
theorem c5_counterexample :
    (muxListenerClose (matchOp mux0)).rootClosed = true ∧
    (matchOp mux0).rootClosed = false := by
  decide

/-- C5 (amended): Close on a child listener returned by Match closes the
shared root listener (muxListener declares no Close of its own, so the
call is promoted to the embedded root listener that Match installed); the
routes' accept queues themselves are left untouched. -/
theorem c5_child_close (st : MuxSt) :
    (muxListenerClose st).rootClosed = true ∧
    (muxListenerClose st).queuesClosed = st.queuesClosed := by
  exact ⟨rfl, rfl⟩

/-- C7: after an error from the root listener's Accept, the Serve loop
continues accepting exactly when the installed handler returns true and
the error is a net.Error whose Temporary() is true; in every other case
Serve stops and returns that very error. -/
theorem c7_accept_error_policy (errh : ErrM → Bool) (e : ErrM) :
    (serveOnAcceptError errh e = none ↔
      errh e = true ∧ e.isNet = true ∧ e.temporary = true) ∧
    (serveOnAcceptError errh e = none ∨ serveOnAcceptError errh e = some e) := by
  unfold serveOnAcceptError handleErr
  cases h1 : errh e <;> cases h2 : e.isNet <;> cases h3 : e.temporary <;>
    simp [h1, h2, h3]

/-- C3: a replay-store read that copies a positive number of bytes and
thereby exhausts the store reports end-of-data in that same call, and
MuxConn.Read then continues into the raw connection within the same call
(the continuation chunk is empty exactly when the caller's request was
already filled). -/
theorem c3_eof_same_call (m : MuxConn) (k : Nat)
    (hpos : 0 < (m.buf.Read k).1.length)
    (hexh : ((m.buf.Read k).2.1).read = m.buf.data.length) :
    (m.buf.Read k).2.2 = true ∧
    (MuxConn.Read m k).1 =
      (m.buf.Read k).1 ++
        (m.stream.drop m.pos).take (k - (m.buf.Read k).1.length) := by
  have heof : (m.buf.Read k).2.2 = true := by
    simp only [buffer.Read] at hexh ⊢
    simpa using hexh
  refine ⟨heof, ?_⟩
  simp only [MuxConn.Read, heof]
  by_cases hfull : (m.buf.Read k).1.length = k
  · simp [buffer.Read] at hfull ⊢
    simp [hfull]
  · have : ((m.buf.Read k).1.length == k) = false := by
      simpa using hfull
    simp [buffer.Read] at this ⊢
    simp only [MuxConn.connRead, buffer.Read]
    rw [if_neg (by omega)]

/-- Witness for C3 at a concrete store and connection: the buffer holds
[1,2,3] with the cursor at 1, the raw stream [9,8,7] is consumed to
position 2, and a 5-byte read copies [2,3], exhausts the store, reports
EOF in the same call, and continues into the raw connection for [7]. -/
theorem c3_eof_same_call_witness :
    0 < (((⟨[9,8,7], 2, ⟨[1,2,3], 1⟩, "w"⟩ : MuxConn).buf.Read 5).1.length) ∧
    ((((⟨[9,8,7], 2, ⟨[1,2,3], 1⟩, "w"⟩ : MuxConn).buf.Read 5).2.1).read =
      (⟨[9,8,7], 2, ⟨[1,2,3], 1⟩, "w"⟩ : MuxConn).buf.data.length) ∧
    ((((⟨[9,8,7], 2, ⟨[1,2,3], 1⟩, "w"⟩ : MuxConn).buf.Read 5).2.2 = true) ∧
     (MuxConn.Read (⟨[9,8,7], 2, ⟨[1,2,3], 1⟩, "w"⟩ : MuxConn) 5).1 =
       ((⟨[9,8,7], 2, ⟨[1,2,3], 1⟩, "w"⟩ : MuxConn).buf.Read 5).1 ++
         ((⟨[9,8,7], 2, ⟨[1,2,3], 1⟩, "w"⟩ : MuxConn).stream.drop
             (⟨[9,8,7], 2, ⟨[1,2,3], 1⟩, "w"⟩ : MuxConn).pos).take
           (5 - ((⟨[9,8,7], 2, ⟨[1,2,3], 1⟩, "w"⟩ : MuxConn).buf.Read 5).1.length)) :=
  ⟨by decide, by decide,
   c3_eof_same_call (⟨[9,8,7], 2, ⟨[1,2,3], 1⟩, "w"⟩ : MuxConn) 5
     (by decide) (by decide)⟩

/-- Appending to the captured prefix of a stream captures a longer prefix:
the shape of every tee write into the replay buffer. -/
theorem buf_extend (S : List Byte) (pos j : Nat) (h : pos ≤ S.length) :
    S.take pos ++ (S.drop pos).take j =
      S.take (pos + ((S.drop pos).take j).length) ∧
    pos + ((S.drop pos).take j).length ≤ S.length := by
  constructor
  · rw [List.take_add]
    congr 1
    rw [List.length_take]
    rcases le_or_lt j (S.drop pos).length with hj | hj
    · rw [min_eq_left hj]
    · rw [min_eq_right hj.le, List.take_length, List.take_of_length_le hj.le]
  · have h1 : ((S.drop pos).take j).length ≤ (S.drop pos).length := by
      rw [List.length_take]; exact min_le_right _ _
    have h2 : (S.drop pos).length = S.length - pos := List.length_drop _ _
    omega

/-- Taking `b - pos` bytes past an already-captured `pos`-byte prefix
yields the `b`-byte prefix. -/
theorem fill_eq (S : List Byte) (pos b : Nat) (h2 : pos ≤ b) :
    S.take pos ++ (S.drop pos).take (b - pos) = S.take b := by
  have h3 : pos + (b - pos) = b := by omega
  rw [← List.take_add, h3]

/-- A list is its clipped take followed by the matching drop. -/
theorem take_len_drop (j : Nat) (x : List Byte) :
    x.take j ++ x.drop ((x.take j).length) = x := by
  rw [List.length_take]
  rcases le_or_lt j x.length with hj | hj
  · rw [min_eq_left hj, List.take_append_drop]
  · rw [min_eq_right hj.le, List.drop_length, List.append_nil,
        List.take_of_length_le hj.le]

/-- MuxConn.Read resolved by whether the replay store can fill the whole
request: either the request is served from the store alone, or the store
is drained to its end and the raw connection supplies the rest in the
same call. -/
theorem muxRead_char (m : MuxConn) (k : Nat)
    (hr : m.buf.read ≤ m.buf.data.length) :
    (k ≤ m.buf.data.length - m.buf.read →
      MuxConn.Read m k = ((m.buf.data.drop m.buf.read).take k,
        { m with buf := ⟨m.buf.data, m.buf.read + k⟩ },
        m.buf.read + k == m.buf.data.length)) ∧
    (m.buf.data.length - m.buf.read < k →
      MuxConn.Read m k = (m.buf.data.drop m.buf.read ++
          (m.stream.drop m.pos).take (k - (m.buf.data.length - m.buf.read)),
        { m with
            pos := m.pos + ((m.stream.drop m.pos).take
              (k - (m.buf.data.length - m.buf.read))).length,
            buf := ⟨m.buf.data, m.buf.data.length⟩ },
        ((m.stream.drop m.pos).take
          (k - (m.buf.data.length - m.buf.read))).length == 0)) := by
  have hlenA : (m.buf.data.drop m.buf.read).length =
      m.buf.data.length - m.buf.read := List.length_drop _ _
  constructor
  · intro hk
    have hfull : ((m.buf.data.drop m.buf.read).take k).length = k := by
      rw [List.length_take, hlenA]; omega
    simp only [MuxConn.Read, buffer.Read, hfull]
    rw [if_pos (by simp)]
  · intro hk
    have hA : (m.buf.data.drop m.buf.read).take k = m.buf.data.drop m.buf.read :=
      List.take_of_length_le (by omega)
    have hn1 : ((m.buf.data.drop m.buf.read).take k).length =
        m.buf.data.length - m.buf.read := by rw [hA, hlenA]
    have heof : (m.buf.read + ((m.buf.data.drop m.buf.read).take k).length ==
        m.buf.data.length) = true := by
      rw [hn1]; simp; omega
    have hne : (((m.buf.data.drop m.buf.read).take k).length == k) = false := by
      rw [hn1]; simp; omega
    simp only [MuxConn.Read, buffer.Read, heof, hne]
    rw [if_neg (by simp)]
    simp only [MuxConn.connRead, hA, hlenA]
    have h5 : m.buf.read + (m.buf.data.length - m.buf.read) = m.buf.data.length := by
      omega
    rw [h5]

/-- Repeated k-byte MuxConn.Read calls deliver exactly the unread part of
the replay store followed by the unconsumed rest of the raw stream. -/
theorem drain_spec (S : List Byte) (k : Nat) (hk : 1 ≤ k) :
    ∀ fuel (m : MuxConn), m.stream = S → m.pos ≤ S.length →
      m.buf.read ≤ m.buf.data.length →
      m.buf.data.length - m.buf.read + (S.length - m.pos) < fuel →
      drainF fuel m k = m.buf.data.drop m.buf.read ++ S.drop m.pos := by
  intro fuel
  induction fuel with
  | zero => intro m _ _ _ hlt; omega
  | succ fuel ih =>
    intro m hs hp hr hlt
    have hchar := muxRead_char m k hr
    rcases le_or_lt k (m.buf.data.length - m.buf.read) with hcase | hcase
    · -- the store fills the whole request
      have hread := hchar.1 hcase
      have hlen : (MuxConn.Read m k).1.length = k := by
        rw [hread]; dsimp only; rw [List.length_take, List.length_drop]; omega
      have hne : ((MuxConn.Read m k).1.length == 0) = false := by
        rw [hlen]; simp; omega
      simp only [drainF, hne, Bool.false_eq_true, if_false]
      have ihu := ih (MuxConn.Read m k).2.1
        (by rw [hread]; exact hs) (by rw [hread]; exact hp)
        (by rw [hread]; dsimp only; omega)
        (by rw [hread]; dsimp only; omega)
      rw [ihu, hread]
      dsimp only
      have hsplit : List.take k (List.drop m.buf.read m.buf.data) ++
          List.drop (m.buf.read + k) m.buf.data =
            List.drop m.buf.read m.buf.data := by
        have h8 : List.drop (m.buf.read + k) m.buf.data =
            List.drop k (List.drop m.buf.read m.buf.data) := by
          rw [List.drop_drop, Nat.add_comm]
        rw [h8, List.take_append_drop]
      rw [← List.append_assoc, hsplit]
    · -- the store is drained and the raw connection continues in-call
      have hread := hchar.2 hcase
      have hc2len : ∀ j : Nat, ((m.stream.drop m.pos).take j).length ≤
          S.length - m.pos := by
        intro j
        rw [List.length_take, hs, List.length_drop]
        exact min_le_right _ _
      by_cases hempty : (MuxConn.Read m k).1.length = 0
      · -- nothing left anywhere: the drain stops
        rw [hread] at hempty
        dsimp only at hempty
        rw [List.length_append] at hempty
        have hA : m.buf.data.drop m.buf.read = [] :=
          List.eq_nil_of_length_eq_zero (by omega)
        have hAlen : m.buf.data.length - m.buf.read = 0 := by
          have h6 := List.length_drop m.buf.read m.buf.data
          rw [hA] at h6
          simp at h6
          omega
        have hc2 : (m.stream.drop m.pos).take k = [] := by
          have h0 : ((m.stream.drop m.pos).take
              (k - (m.buf.data.length - m.buf.read))).length = 0 := by omega
          rw [hAlen, Nat.sub_zero] at h0
          exact List.eq_nil_of_length_eq_zero h0
        have hc2' : (S.drop m.pos).take k = [] := by
          rw [← hs]; exact hc2
        have hSdrop : S.drop m.pos = [] := by
          rcases (List.take_eq_nil_iff).mp hc2' with h | h
          · omega
          · exact h
        have hz : ((MuxConn.Read m k).1.length == 0) = true := by
          rw [hread]; dsimp only
          rw [hA, hAlen, Nat.sub_zero, hc2]
          simp
        simp only [drainF, hz, if_true, hA, hSdrop, List.append_nil]
      · -- bytes were delivered: recurse past them
        have hz : ((MuxConn.Read m k).1.length == 0) = false := by
          simp only [beq_eq_false_iff_ne]; exact hempty
        simp only [drainF, hz, Bool.false_eq_true, if_false]
        rw [hread] at hempty
        dsimp only at hempty
        rw [List.length_append] at hempty
        have hAlen := List.length_drop m.buf.read m.buf.data
        have ihu := ih (MuxConn.Read m k).2.1
          (by rw [hread]; exact hs)
          (by rw [hread]; dsimp only
              have h7 := hc2len (k - (m.buf.data.length - m.buf.read))
              omega)
          (by rw [hread])
          (by rw [hread]; dsimp only
              have h7 := hc2len (k - (m.buf.data.length - m.buf.read))
              omega)
        rw [ihu, hread]
        dsimp only
        rw [List.drop_length, List.nil_append]
        have hdd : List.drop (m.pos + ((List.take
            (k - (m.buf.data.length - m.buf.read)) (List.drop m.pos m.stream)).length)) S =
            List.drop ((List.take (k - (m.buf.data.length - m.buf.read))
              (List.drop m.pos m.stream)).length) (List.drop m.pos S) := by
          rw [List.drop_drop, Nat.add_comm]
        rw [hdd, List.append_assoc]
        congr 1
        rw [hs]
        exact take_len_drop _ _


/-- Every single Read call on a sniffing view preserves the session
invariant: replaying moves only the cursor, and a teed connection read
extends the captured prefix by exactly what it consumed. -/
theorem winv_sniffer_read (S : List Byte) (s : Sniffer) (k : Nat)
    (h : WInv S s.mc) : WInv S ((s.Read k).2).mc := by
  obtain ⟨h1, h2, h3, h4⟩ := h
  unfold Sniffer.Read
  split
  · refine ⟨h1, h2, h3, ?_⟩
    dsimp only [buffer.Read]
    simp only [List.length_take, List.length_drop]
    omega
  · dsimp only [buffer.Write]
    subst h1
    obtain ⟨hext, hle⟩ := buf_extend s.mc.stream s.mc.pos k h3
    refine ⟨rfl, ?_, ?_, ?_⟩
    · dsimp only
      rw [h2, hext]
    · dsimp only
      exact hle
    · dsimp only
      rw [List.length_append]
      omega

/-- A whole session of sniffing Read calls preserves the invariant. -/
theorem winv_sniffCallsGo (S : List Byte) :
    ∀ ks (s : Sniffer), WInv S s.mc → WInv S ((sniffCallsGo s ks).2).mc := by
  intro ks
  induction ks with
  | nil => intro s h; exact h
  | cons k ks ih =>
    intro s h
    simpa only [sniffCallsGo] using ih _ (winv_sniffer_read S s k h)

/-- After any number of matcher sessions, each followed by the reset the
dispatch loop performs, the buffer holds exactly the consumed stream
prefix and the cursor is rewound. -/
theorem winv_sniffMany (S : List Byte) :
    ∀ sessions (m : MuxConn), WInv S m → m.buf.read = 0 →
      WInv S (sniffMany sessions m) ∧ (sniffMany sessions m).buf.read = 0 := by
  intro sessions
  induction sessions with
  | nil => intro m h h0; exact ⟨h, h0⟩
  | cons ks ss ih =>
    intro m h _
    have h2 : WInv S ((sniffCalls m ks).2) :=
      winv_sniffCallsGo S ks m.sniffer h
    have h3 : WInv S (((sniffCalls m ks).2).reset) := by
      obtain ⟨a, b, c, d⟩ := h2
      exact ⟨a, b, c, by simp [MuxConn.reset, buffer.resetRead]⟩
    have h4 : (((sniffCalls m ks).2).reset).buf.read = 0 := rfl
    simpa only [sniffMany, List.foldl_cons] using ih _ h3 h4

/-- C2: exactly-once delivery.  Whatever sequence of matchers sniffed the
connection through sniffer()/reset() — each with an arbitrary sequence of
read calls — the downstream owner who reads the matched connection in
k-byte MuxConn.Read calls (buffer replay first, then raw reads) receives
byte-for-byte the full raw stream, nothing duplicated, nothing lost. -/
theorem c2_exactly_once (S : List Byte) (remote : String)
    (sessions : List (List Nat)) (k : Nat) (hk : 1 ≤ k) :
    drainAll (sniffMany sessions (newMuxConn S remote)) k = S := by
  have hinv0 : WInv S (newMuxConn S remote) :=
    ⟨rfl, rfl, by simp [newMuxConn], by simp [newMuxConn]⟩
  obtain ⟨⟨hs, hd, hp, hr⟩, h0⟩ :=
    winv_sniffMany S sessions (newMuxConn S remote) hinv0 rfl
  unfold drainAll
  rw [drain_spec S k hk _ _ hs hp hr ?_]
  · rw [h0, List.drop_zero, hd, List.take_append_drop]
  · rw [hs]
    omega

/-- Witness for C2: the stream [1,2,3] sniffed by two matchers (one
reading 2 bytes, one reading 5 in two calls) is delivered exactly once to
a downstream owner reading one byte at a time. -/
theorem c2_exactly_once_witness :
    1 ≤ 1 ∧
    drainAll (sniffMany [[2], [4, 1]] (newMuxConn [1, 2, 3] "w")) 1 = [1, 2, 3] :=
  ⟨by decide, c2_exactly_once [1, 2, 3] "w" [[2], [4, 1]] 1 (by decide)⟩

/-- One ReadFull sniffing session under the dispatch invariant: the
matcher sees exactly the stream prefix of its budget (its view starts at
offset 0), and after the loop's reset the invariant holds again. -/
theorem inv_sniffFull (S : List Byte) (remote : String) (m : MuxConn) (b : Nat)
    (h : Inv S remote m) :
    (sniffFull m b).1 = S.take b ∧ Inv S remote (((sniffFull m b).2).reset) := by
  obtain ⟨h1, h2, h3, h4, h5⟩ := h
  constructor
  · unfold sniffFull
    dsimp only
    rw [h5, List.drop_zero, h3, h1, List.take_take]
    rcases le_or_lt b m.pos with hbp | hbp
    · rw [min_eq_left hbp]
      have hlen : (S.take b).length = b := by
        rw [List.length_take]; omega
      rw [hlen, Nat.sub_self, List.take_zero, List.append_nil]
    · rw [min_eq_right hbp.le]
      have hlen : (S.take m.pos).length = m.pos := by
        rw [List.length_take]; omega
      rw [hlen]
      exact fill_eq S m.pos b hbp.le
  · unfold sniffFull MuxConn.reset buffer.resetRead
    dsimp only
    rw [h1, h3]
    obtain ⟨hext, hle⟩ :=
      buf_extend S m.pos (b - (((S.take m.pos).drop m.buf.read).take b).length) h4
    refine ⟨rfl, h2, ?_, ?_, rfl⟩
    · dsimp only
      rw [hext]
    · dsimp only
      exact hle

/-- A route none of whose matchers accept: the inner loop reports no
match, every matcher saw the stream prefix of its budget, and the
invariant survives. -/
theorem serveRoute_reject (S : List Byte) (remote : String) :
    ∀ (ms : List MatcherM) (m : MuxConn), Inv S remote m →
      (∀ mt ∈ ms, mt.accepts S = false) →
      (serveRoute ms m).1 = none ∧ Inv S remote (serveRoute ms m).2.1 ∧
      (serveRoute ms m).2.2 = ms.map (fun mt => S.take mt.budget) := by
  intro ms
  induction ms with
  | nil => intro m h _; exact ⟨rfl, h, rfl⟩
  | cons mt rest ih =>
    intro m h hrej
    have hsf := inv_sniffFull S remote m mt.budget h
    have hmt : mt.pred (sniffFull m mt.budget).1 = false := by
      rw [hsf.1]
      exact hrej mt (by simp)
    have ihr := ih (((sniffFull m mt.budget).2).reset) hsf.2
      (fun x hx => hrej x (by simp [hx]))
    simp only [serveRoute, hmt, Bool.false_eq_true, if_false]
    exact ⟨ihr.1, ihr.2.1, by simp [hsf.1, ihr.2.2]⟩

/-- A route with an accepting matcher: the inner loop stops at the first
accepting matcher and hands back the connection, every invoked matcher
having seen the stream prefix of its budget. -/
theorem serveRoute_accept (S : List Byte) (remote : String) :
    ∀ (ms : List MatcherM) (m : MuxConn), Inv S remote m →
      ms.any (fun mt => mt.accepts S) = true →
      ∃ mc, serveRoute ms m =
        (some mc, mc, (invokedInRoute ms S).map (fun mt => S.take mt.budget)) := by
  intro ms
  induction ms with
  | nil => intro m _ hacc; simp at hacc
  | cons mt rest ih =>
    intro m h hacc
    have hsf := inv_sniffFull S remote m mt.budget h
    by_cases hmt : mt.accepts S = true
    · have hpred : mt.pred (sniffFull m mt.budget).1 = true := by
        rw [hsf.1]; exact hmt
      refine ⟨(((sniffFull m mt.budget).2).reset), ?_⟩
      simp only [serveRoute, hpred, if_true, invokedInRoute, hmt, List.map_cons,
        List.map_nil]
      rw [hsf.1]
    · have hmt2 : mt.accepts S = false := by
        cases hx : mt.accepts S
        · rfl
        · exact absurd hx hmt
      have hpred : mt.pred (sniffFull m mt.budget).1 = false := by
        rw [hsf.1]; exact hmt2
      have hacc2 : rest.any (fun x => x.accepts S) = true := by
        simp only [List.any_cons, hmt2, Bool.false_or] at hacc
        exact hacc
      obtain ⟨mc, hmc⟩ := ih (((sniffFull m mt.budget).2).reset) hsf.2 hacc2
      refine ⟨mc, ?_⟩
      simp only [serveRoute, hpred, Bool.false_eq_true, if_false, hmc,
        invokedInRoute, hmt2, List.map_cons]
      rw [hsf.1]

/-- The dispatch loop over the whole route table when some route accepts:
the connection goes to the earliest-registered accepting route, and the
invoked matchers (all of the earlier, rejecting routes, then the
accepting route's matchers up to its first accepting one) each saw the
stream prefix of their budget, from offset 0. -/
theorem serveConn_priority_aux (S : List Byte) (remote : String)
    (errh : ErrM → Bool) :
    ∀ (routes : List (List MatcherM)) (m : MuxConn), Inv S remote m →
      routes.any (fun r => r.any (fun mt => mt.accepts S)) = true →
      (serveConn routes errh m).delivered.map Prod.fst =
        some (routes.findIdx (fun r => r.any (fun mt => mt.accepts S))) ∧
      (serveConn routes errh m).views =
        (invokedMs routes S).map (fun mt => S.take mt.budget) := by
  intro routes
  induction routes with
  | nil => intro m _ hacc; simp at hacc
  | cons r rest ih =>
    intro m h hacc
    by_cases hr : r.any (fun mt => mt.accepts S) = true
    · obtain ⟨mc, hmc⟩ := serveRoute_accept S remote r m h hr
      simp [serveConn, hmc, List.findIdx_cons, hr, invokedMs]
    · have hr2 : r.any (fun mt => mt.accepts S) = false := by
        cases hx : r.any (fun mt => mt.accepts S)
        · rfl
        · exact absurd hx hr
      have hrej : ∀ mt ∈ r, mt.accepts S = false := by
        intro mt hmt
        rcases List.any_eq_false.mp hr2 mt hmt with h9
        cases hx : mt.accepts S
        · rfl
        · exact absurd hx h9
      obtain ⟨ha1, ha2, ha3⟩ := serveRoute_reject S remote r m h hrej
      have hacc2 : rest.any (fun x => x.any (fun mt => mt.accepts S)) = true := by
        simp only [List.any_cons, hr2, Bool.false_or] at hacc
        exact hacc
      have ihr := ih (serveRoute r m).2.1 ha2 hacc2
      cases hdel : (serveConn rest errh (serveRoute r m).2.1).delivered with
      | none => rw [hdel] at ihr; simp at ihr
      | some p =>
        rw [hdel] at ihr
        have hp1 : p.1 = rest.findIdx (fun x => x.any (fun mt => mt.accepts S)) := by
          have h10 := ihr.1
          simp only [Option.map_some'] at h10
          simpa using h10
        simp only [serveConn, ha1, hdel, Option.map_some', List.findIdx_cons, hr2,
          cond_false, invokedMs, hr2, Bool.false_eq_true, if_false, ha3]
        constructor
        · rw [hp1]
        · rw [ihr.2, List.map_append]

/-- C4: priority determinism.  When at least one registered matcher
accepts the stream's prefix, the dispatch loop delivers the connection to
the earliest-registered route containing an accepting matcher; within
that route the first accepting matcher (in registration order) decides,
and every invoked matcher saw the stream prefix from offset 0 (its view
rewound by reset). -/
theorem c4_priority (routes : List (List MatcherM)) (errh : ErrM → Bool)
    (S : List Byte) (remote : String)
    (hacc : routes.any (fun r => r.any (fun mt => mt.accepts S)) = true) :
    (serveConn routes errh (newMuxConn S remote)).delivered.map Prod.fst =
      some (routes.findIdx (fun r => r.any (fun mt => mt.accepts S))) ∧
    (serveConn routes errh (newMuxConn S remote)).views =
      (invokedMs routes S).map (fun mt => S.take mt.budget) :=
  serveConn_priority_aux S remote errh routes (newMuxConn S remote)
    ⟨rfl, rfl, by simp [newMuxConn], by simp [newMuxConn], rfl⟩ hacc

/-- Witness for C4 at a concrete table: two routes would both accept the
stream [1,2,3] (route 0 checks the first byte is 1, route 1 accepts
everything), and the connection is delivered to route 0 with exactly the
first route's single matcher invoked on the 2-byte prefix. -/
theorem c4_priority_witness :
    ([[⟨2, fun bs => bs.headD 0 == 1⟩], [⟨1, fun bs => true⟩]] :
        List (List MatcherM)).any
      (fun r => r.any (fun mt => mt.accepts [1, 2, 3])) = true ∧
    ((serveConn [[⟨2, fun bs => bs.headD 0 == 1⟩], [⟨1, fun bs => true⟩]]
          (fun e => true) (newMuxConn [1, 2, 3] "w")).delivered.map Prod.fst =
        some (([[⟨2, fun bs => bs.headD 0 == 1⟩], [⟨1, fun bs => true⟩]] :
          List (List MatcherM)).findIdx
            (fun r => r.any (fun mt => mt.accepts [1, 2, 3]))) ∧
      (serveConn [[⟨2, fun bs => bs.headD 0 == 1⟩], [⟨1, fun bs => true⟩]]
          (fun e => true) (newMuxConn [1, 2, 3] "w")).views =
        (invokedMs [[⟨2, fun bs => bs.headD 0 == 1⟩], [⟨1, fun bs => true⟩]]
            [1, 2, 3]).map (fun mt => List.take mt.budget [1, 2, 3])) :=
  ⟨by decide,
   c4_priority [[⟨2, fun bs => bs.headD 0 == 1⟩], [⟨1, fun bs => true⟩]]
     (fun e => true) [1, 2, 3] "w" (by decide)⟩

/-- The dispatch loop when no registered matcher accepts: every route is
walked in vain, the worker closes the raw connection, reports
ErrNotMatched for the connection's remote address to the policy through
handleErr, closes the root listener exactly when handleErr refuses, and
no route's queue receives the connection. -/
theorem serveConn_reject_aux (S : List Byte) (remote : String)
    (errh : ErrM → Bool) :
    ∀ (routes : List (List MatcherM)) (m : MuxConn), Inv S remote m →
      (∀ r ∈ routes, ∀ mt ∈ r, mt.accepts S = false) →
      (serveConn routes errh m).delivered = none ∧
      (serveConn routes errh m).connClosed = true ∧
      (serveConn routes errh m).reported = some (errNotMatched remote) ∧
      (serveConn routes errh m).rootClosed =
        !(handleErr errh (errNotMatched remote)) := by
  intro routes
  induction routes with
  | nil =>
    intro m h _
    obtain ⟨_, h2, _, _, _⟩ := h
    simp [serveConn, h2]
  | cons r rest ih =>
    intro m h hrej
    obtain ⟨ha1, ha2, ha3⟩ := serveRoute_reject S remote r m h
      (fun mt hmt => hrej r (by simp) mt hmt)
    have ihr := ih (serveRoute r m).2.1 ha2
      (fun x hx mt hmt => hrej x (by simp [hx]) mt hmt)
    simp only [serveConn, ha1]
    refine ⟨?_, ihr.2.1, ihr.2.2.1, ihr.2.2.2⟩
    rw [ihr.1]
    rfl

/-- C8: a connection no registered matcher accepts is closed by the
worker; ErrNotMatched — a net.Error carrying the remote address in its
message, Temporary() true, Timeout() false — is reported to the
error-handling policy; the root listener is closed exactly when handleErr
refuses continuation; and no route's queue receives the connection. -/
theorem c8_unmatched (routes : List (List MatcherM)) (errh : ErrM → Bool)
    (S : List Byte) (remote : String)
    (hrej : ∀ r ∈ routes, ∀ mt ∈ r, mt.accepts S = false) :
    (serveConn routes errh (newMuxConn S remote)).delivered = none ∧
    (serveConn routes errh (newMuxConn S remote)).connClosed = true ∧
    (serveConn routes errh (newMuxConn S remote)).reported =
      some (errNotMatched remote) ∧
    (errNotMatched remote).isNet = true ∧
    (errNotMatched remote).temporary = true ∧
    (errNotMatched remote).timeout = false ∧
    (errNotMatched remote).msg =
      "mux: connection " ++ remote ++ " not matched by an matcher" ∧
    (serveConn routes errh (newMuxConn S remote)).rootClosed =
      !(handleErr errh (errNotMatched remote)) := by
  have haux := serveConn_reject_aux S remote errh routes (newMuxConn S remote)
    ⟨rfl, rfl, by simp [newMuxConn], by simp [newMuxConn], rfl⟩ hrej
  exact ⟨haux.1, haux.2.1, haux.2.2.1, rfl, rfl, rfl, rfl, haux.2.2.2⟩

/-- Witness for C8: a one-route table whose only matcher wants the first
byte to be 9 rejects the stream [1,2]; the worker closes the connection,
reports ErrNotMatched for remote "10.0.0.7:4242", and (the default
policy accepting) leaves the root listener open. -/
theorem c8_unmatched_witness :
    (∀ r ∈ ([[⟨2, fun bs => bs.headD 0 == 9⟩]] : List (List MatcherM)),
      ∀ mt ∈ r, mt.accepts [1, 2] = false) ∧
    ((serveConn [[⟨2, fun bs => bs.headD 0 == 9⟩]] (fun e => true)
        (newMuxConn [1, 2] "10.0.0.7:4242")).delivered = none ∧
     (serveConn [[⟨2, fun bs => bs.headD 0 == 9⟩]] (fun e => true)
        (newMuxConn [1, 2] "10.0.0.7:4242")).connClosed = true ∧
     (serveConn [[⟨2, fun bs => bs.headD 0 == 9⟩]] (fun e => true)
        (newMuxConn [1, 2] "10.0.0.7:4242")).reported =
       some (errNotMatched "10.0.0.7:4242") ∧
     (errNotMatched "10.0.0.7:4242").isNet = true ∧
     (errNotMatched "10.0.0.7:4242").temporary = true ∧
     (errNotMatched "10.0.0.7:4242").timeout = false ∧
     (errNotMatched "10.0.0.7:4242").msg =
       "mux: connection " ++ "10.0.0.7:4242" ++ " not matched by an matcher" ∧
     (serveConn [[⟨2, fun bs => bs.headD 0 == 9⟩]] (fun e => true)
        (newMuxConn [1, 2] "10.0.0.7:4242")).rootClosed =
       !(handleErr (fun e => true) (errNotMatched "10.0.0.7:4242"))) :=
  ⟨by decide,
   c8_unmatched [[⟨2, fun bs => bs.headD 0 == 9⟩]] (fun e => true)
     [1, 2] "10.0.0.7:4242" (by decide)⟩

/-- Shared prefixes transfer to shorter takes. -/
theorem take_congr_of_le (a b : List Char) (n m : Nat) (h : a.take n = b.take n)
    (hm : m ≤ n) : a.take m = b.take m := by
  have ha : a.take m = (a.take n).take m := by
    rw [List.take_take, min_eq_left hm]
  have hb : b.take m = (b.take n).take m := by
    rw [List.take_take, min_eq_left hm]
  rw [ha, hb, h]

/-- The incremental tag check accepts when the whole tag is present at the
head of the available bytes. -/
theorem scanTag_header : ∀ (rem i : Nat) (avail : List Char), 1 ≤ i →
    i + rem - 1 ≤ avail.length →
    avail.take (i + rem - 1) = proxyTag.take (i + rem - 1) →
    scanTag avail i rem = .header := by
  intro rem
  induction rem with
  | zero => intro i avail _ _ _; rfl
  | succ rem ih =>
    intro i avail h1 hlen hpre
    unfold scanTag
    rw [if_neg (by omega)]
    rw [if_pos (take_congr_of_le avail proxyTag (i + (rem + 1) - 1) i hpre (by omega))]
    exact ih (i + 1) avail (by omega) (by omega)
      (by have h2 : i + 1 + rem - 1 = i + (rem + 1) - 1 := by omega
          rw [h2]; exact hpre)

/-- The incremental tag check reports a mismatch when the available bytes
disagree with the tag somewhere inside the clipped window — it never
reaches the peek error in that case. -/
theorem scanTag_mismatch : ∀ (rem i : Nat) (avail : List Char), 1 ≤ i →
    avail.take (i - 1) = proxyTag.take (i - 1) →
    avail.take (min (i + rem - 1) avail.length) ≠
      proxyTag.take (min (i + rem - 1) avail.length) →
    scanTag avail i rem = .mismatch := by
  intro rem
  induction rem with
  | zero =>
    intro i avail h1 hpre hne
    exact absurd
      (take_congr_of_le avail proxyTag (i - 1) (min (i + 0 - 1) avail.length) hpre
        (by omega)) hne
  | succ rem ih =>
    intro i avail h1 hpre hne
    unfold scanTag
    by_cases hlen : avail.length < i
    · exact absurd
        (take_congr_of_le avail proxyTag (i - 1) (min (i + (rem + 1) - 1) avail.length)
          hpre (by omega)) hne
    · rw [if_neg hlen]
      by_cases heq : avail.take i = proxyTag.take i
      · rw [if_pos heq]
        apply ih (i + 1) avail (by omega)
        · have h2 : i + 1 - 1 = i := by omega
          rw [h2]; exact heq
        · have h2 : i + 1 + rem - 1 = i + (rem + 1) - 1 := by omega
          rw [h2]; exact hne
      · rw [if_neg heq]

/-- Bytes that are neither an extension nor a proper prefix of the tag
disagree with it inside the clipped comparison window. -/
theorem mismatch_of_no_pfx (input : List Char)
    (h1 : proxyTag.isPrefixOf input = false)
    (h2 : input.isPrefixOf proxyTag = false) :
    input.take (min proxyTagLen input.length) ≠
      proxyTag.take (min proxyTagLen input.length) := by
  have h6 : proxyTagLen = 6 := by decide
  have htag : proxyTag.length = 6 := by decide
  rcases le_or_lt 6 input.length with hl | hl
  · rw [h6, min_eq_left hl]
    intro heq
    have hp : proxyTag <+: input := by
      rw [List.prefix_iff_eq_take, htag, heq]
      decide
    have h4 := (List.isPrefixOf_iff_prefix).mpr hp
    rw [h1] at h4
    cases h4
  · rw [h6, min_eq_right hl.le]
    intro heq
    rw [List.take_length] at heq
    have hp : input <+: proxyTag := by
      rw [List.prefix_iff_eq_take]
      exact heq
    have h4 := (List.isPrefixOf_iff_prefix).mpr hp
    rw [h2] at h4
    cases h4

/-- The tag check accepts the concrete proxy header whatever payload
follows it. -/
theorem hdr_scan (payload : List Char) :
    scanTag ("PROXY TCP4 192.168.1.1 192.168.1.2 1234 5678\r\n".toList ++ payload)
      1 proxyTagLen = .header := by
  apply scanTag_header
  · decide
  · simp only [List.length_append]
    have h46 : ("PROXY TCP4 192.168.1.1 192.168.1.2 1234 5678\r\n".toList).length = 46 := by
      decide
    have h6 : proxyTagLen = 6 := by decide
    rw [h46, h6]; omega
  · rfl

/-- Reading the header line stops at the CRLF whatever payload follows. -/
theorem hdr_line (payload : List Char) :
    readLine ("PROXY TCP4 192.168.1.1 192.168.1.2 1234 5678\r\n".toList ++ payload) =
      some ("PROXY TCP4 192.168.1.1 192.168.1.2 1234 5678\r\n".toList) := by
  unfold readLine
  have hpre : ("PROXY TCP4 192.168.1.1 192.168.1.2 1234 5678\r\n".toList ++
      payload).takeWhile (fun c => !(c == '\n')) =
      "PROXY TCP4 192.168.1.1 192.168.1.2 1234 5678\r".toList := rfl
  rw [hpre]
  have hcond : (("PROXY TCP4 192.168.1.1 192.168.1.2 1234 5678\r".toList).length ==
      (("PROXY TCP4 192.168.1.1 192.168.1.2 1234 5678\r\n".toList ++
        payload)).length) = false := by
    simp only [beq_eq_false_iff_ne, List.length_append]
    have h45 : ("PROXY TCP4 192.168.1.1 192.168.1.2 1234 5678\r".toList).length = 45 := by
      decide
    have h46 : ("PROXY TCP4 192.168.1.1 192.168.1.2 1234 5678\r\n".toList).length = 46 := by
      decide
    rw [h45, h46]; omega
  dsimp only
  rw [hcond]
  simp

/-- checkPrefix on the concrete TCP4 header followed by any payload that
fits the read buffer: no error, both addresses resolved, and exactly the
payload written back for subsequent readers. -/
theorem hdr_eval (payload : List Char) (hp : payload.length ≤ 978) :
    checkPrefix ("PROXY TCP4 192.168.1.1 192.168.1.2 1234 5678\r\n".toList ++ payload) =
      .ok (some ⟨"192.168.1.1".toList, 1234⟩, some ⟨"192.168.1.2".toList, 5678⟩,
        payload) := by
  have h46 : ("PROXY TCP4 192.168.1.1 192.168.1.2 1234 5678\r\n".toList).length = 46 := by
    decide
  have hbuf : ("PROXY TCP4 192.168.1.1 192.168.1.2 1234 5678\r\n".toList ++
      payload).take defaultBufSize =
      "PROXY TCP4 192.168.1.1 192.168.1.2 1234 5678\r\n".toList ++ payload := by
    apply List.take_of_length_le
    rw [List.length_append, h46]
    show 46 + payload.length ≤ 1024
    omega
  simp only [checkPrefix, hbuf, hdr_scan, hdr_line]
  rw [show ("PROXY TCP4 192.168.1.1 192.168.1.2 1234 5678\r\n".toList).take
      (("PROXY TCP4 192.168.1.1 192.168.1.2 1234 5678\r\n".toList).length - 2) =
      "PROXY TCP4 192.168.1.1 192.168.1.2 1234 5678".toList from by decide]
  by_cases hpay : payload = []
  · subst hpay
    decide
  · have hlen0 : payload.length ≠ 0 := fun h => hpay (List.eq_nil_of_length_eq_zero h)
    have hcond : (("PROXY TCP4 192.168.1.1 192.168.1.2 1234 5678\r\n".toList ++
        payload).length =
        ("PROXY TCP4 192.168.1.1 192.168.1.2 1234 5678\r\n".toList).length) = False := by
      simp only [List.length_append, h46, eq_iff_iff, iff_false]
      omega
    have hdrop : ("PROXY TCP4 192.168.1.1 192.168.1.2 1234 5678\r\n".toList ++
        payload).drop (("PROXY TCP4 192.168.1.1 192.168.1.2 1234 5678\r\n".toList).length) =
        payload := List.drop_left _ _
    rw [if_neg (by decide)]
    rw [if_neg (by decide)]
    rw [if_neg (by decide)]
    rw [if_neg (by decide)]
    rw [show parseIP4 ((splitSp ("PROXY TCP4 192.168.1.1 192.168.1.2 1234 5678".toList)).getD 2 []) = some ("192.168.1.1".toList) from by decide]
    rw [show atoiDec ((splitSp ("PROXY TCP4 192.168.1.1 192.168.1.2 1234 5678".toList)).getD 4 []) = some 1234 from by decide]
    rw [show parseIP4 ((splitSp ("PROXY TCP4 192.168.1.1 192.168.1.2 1234 5678".toList)).getD 3 []) = some ("192.168.1.2".toList) from by decide]
    rw [show atoiDec ((splitSp ("PROXY TCP4 192.168.1.1 192.168.1.2 1234 5678".toList)).getD 5 []) = some 5678 from by decide]
    dsimp only
    simp only [hcond]
    simp [hdrop]

/-- checkPrefix on leading bytes that mismatch the tag inside the clipped
window: no error, no address override, every read byte written back
unchanged. -/
theorem mismatch_eval (input : List Char) (hil : input.length ≤ defaultBufSize)
    (h1 : proxyTag.isPrefixOf input = false)
    (h2 : input.isPrefixOf proxyTag = false) :
    checkPrefix input = .ok (none, none, input) := by
  have hbuf : input.take defaultBufSize = input := List.take_of_length_le hil
  have hscan : scanTag input 1 proxyTagLen = .mismatch := by
    apply scanTag_mismatch proxyTagLen 1 input (le_refl 1)
    · simp
    · have h3 : 1 + proxyTagLen - 1 = proxyTagLen := by omega
      rw [h3]
      exact mismatch_of_no_pfx input h1 h2
  simp only [checkPrefix, hbuf, hscan]

/-- C9 counterexample: the available bytes "PROX" (end of stream after
four bytes) do not start with "PROXY ", yet checkPrefix returns an error
(the byte-by-byte Peek runs past the available bytes), so the claim's
"returns no error, leaves all bytes available" assertion for non-PROXY
inputs is false. -/
theorem c9_counterexample :
    proxyTag.isPrefixOf "PROX".toList = false ∧
    checkPrefix "PROX".toList = Except.error "EOF" := by
  decide

/-- C9 (amended): for the line "PROXY TCP4 192.168.1.1 192.168.1.2 1234
5678\r\n" followed by payload bytes that fit the 1024-byte read,
checkPrefix returns no error, RemoteAddr() thereafter resolves to
192.168.1.1:1234 and LocalAddr() to 192.168.1.2:5678, and exactly the
payload stays available to subsequent reads; when the leading bytes
neither start with "PROXY " nor are a proper prefix of it (a genuine
byte mismatch within the available window — a stream that ends midway
through "PROXY " instead makes checkPrefix return the peek error),
checkPrefix returns no error, leaves both address overrides unset (so
RemoteAddr()/LocalAddr() fall through to the raw connection), and leaves
all bytes it read available unchanged. -/
theorem c9_proxy_extract (payload input under1 under2 : List Char)
    (hp : payload.length ≤ 978)
    (hil : input.length ≤ defaultBufSize)
    (h1 : proxyTag.isPrefixOf input = false)
    (h2 : input.isPrefixOf proxyTag = false) :
    checkPrefix ("PROXY TCP4 192.168.1.1 192.168.1.2 1234 5678\r\n".toList ++ payload) =
      .ok (some ⟨"192.168.1.1".toList, 1234⟩, some ⟨"192.168.1.2".toList, 5678⟩,
        payload) ∧
    remoteAddrP (some ⟨"192.168.1.1".toList, 1234⟩) under1 =
      "192.168.1.1:1234".toList ∧
    localAddrP (some ⟨"192.168.1.2".toList, 5678⟩) under2 =
      "192.168.1.2:5678".toList ∧
    checkPrefix input = .ok (none, none, input) ∧
    remoteAddrP none under1 = under1 ∧
    localAddrP none under2 = under2 :=
  ⟨hdr_eval payload hp, rfl, rfl,
   mismatch_eval input hil h1 h2, rfl, rfl⟩

/-- Witness for C9: payload "payload" after the concrete header, and the
mismatching leading bytes "XYZ stuff". -/
theorem c9_proxy_extract_witness :
    ("payload".toList.length ≤ 978 ∧
     "XYZ stuff".toList.length ≤ defaultBufSize ∧
     proxyTag.isPrefixOf "XYZ stuff".toList = false ∧
     "XYZ stuff".toList.isPrefixOf proxyTag = false) ∧
    (checkPrefix ("PROXY TCP4 192.168.1.1 192.168.1.2 1234 5678\r\n".toList ++
        "payload".toList) =
      .ok (some ⟨"192.168.1.1".toList, 1234⟩, some ⟨"192.168.1.2".toList, 5678⟩,
        "payload".toList) ∧
     remoteAddrP (some ⟨"192.168.1.1".toList, 1234⟩) "u".toList =
       "192.168.1.1:1234".toList ∧
     localAddrP (some ⟨"192.168.1.2".toList, 5678⟩) "v".toList =
       "192.168.1.2:5678".toList ∧
     checkPrefix "XYZ stuff".toList = .ok (none, none, "XYZ stuff".toList) ∧
     remoteAddrP none "u".toList = "u".toList ∧
     localAddrP none "v".toList = "v".toList) :=
  ⟨⟨by decide, by decide, by decide, by decide⟩,
   c9_proxy_extract "payload".toList "XYZ stuff".toList "u".toList "v".toList
     (by decide) (by decide) (by decide) (by decide)⟩


theorem measureStrs_perm (l1 l2 : List (List Byte)) (h : l1.Perm l2) :
    measureStrs l1 = measureStrs l2 := by
  unfold measureStrs
  exact (h.map (fun s => s.length + 1)).sum_eq

theorem stepEq_eq_some_iff (bss : List (List Byte)) (i : Nat) (c : Byte)
    (hne : bss ≠ []) :
    stepEq bss i = some c ↔
      (∀ b ∈ bss, i < b.length) ∧ (∀ b ∈ bss, b.getD i 0 = c) := by
  cases bss with
  | nil => exact absurd rfl hne
  | cons b0 rest =>
    unfold stepEq
    dsimp only
    constructor
    · intro h
      cases hg : b0.get? i with
      | none => rw [hg] at h; dsimp only at h; cases h
      | some cur =>
        rw [hg] at h
        dsimp only at h
        by_cases hall :
            rest.all (fun b => decide (i < b.length) && (b.getD i 0 == cur)) = true
        · rw [if_pos hall] at h
          have hcur : cur = c := Option.some.inj h
          subst hcur
          obtain ⟨hi0, hget⟩ := List.get?_eq_some.mp hg
          constructor
          · intro b hb
            rcases List.mem_cons.mp hb with rfl | hbr
            · exact hi0
            · have h3 := List.all_eq_true.mp hall b hbr
              simp only [Bool.and_eq_true, decide_eq_true_eq] at h3
              exact h3.1
          · intro b hb
            rcases List.mem_cons.mp hb with rfl | hbr
            · rw [List.getD_eq_get?, hg]
              rfl
            · have h3 := List.all_eq_true.mp hall b hbr
              simp only [Bool.and_eq_true, decide_eq_true_eq, beq_iff_eq] at h3
              exact h3.2
        · rw [if_neg hall] at h; cases h
    · rintro ⟨hlt, hval⟩
      have hi0 : i < b0.length := hlt b0 (List.mem_cons_self _ _)
      have hc0 : b0.getD i 0 = c := hval b0 (List.mem_cons_self _ _)
      have hg : b0.get? i = some c := by
        cases hgg : b0.get? i with
        | none =>
          rw [List.get?_eq_none] at hgg
          omega
        | some v =>
          rw [List.getD_eq_get?, hgg] at hc0
          simp only [Option.getD_some] at hc0
          rw [hc0]
      rw [hg]
      dsimp only
      rw [if_pos ?_]
      apply List.all_eq_true.mpr
      intro b hb
      simp only [Bool.and_eq_true, decide_eq_true_eq, beq_iff_eq]
      exact ⟨hlt b (List.mem_cons_of_mem _ hb), hval b (List.mem_cons_of_mem _ hb)⟩

theorem stepEq_perm (l1 l2 : List (List Byte)) (h : l1.Perm l2) (i : Nat) :
    stepEq l1 i = stepEq l2 i := by
  cases hl1 : l1 with
  | nil =>
    subst hl1
    rw [List.nil_perm] at h
    subst h
    rfl
  | cons b0 r =>
    subst hl1
    have hne1 : b0 :: r ≠ [] := by simp
    have hne2 : l2 ≠ [] := by
      intro hh
      subst hh
      rw [List.perm_nil] at h
      cases h
    cases hs1 : stepEq (b0 :: r) i with
    | some c =>
      obtain ⟨ha, hb⟩ := (stepEq_eq_some_iff (b0 :: r) i c hne1).mp hs1
      exact ((stepEq_eq_some_iff l2 i c hne2).mpr
        ⟨fun b hbm => ha b (h.mem_iff.mpr hbm),
         fun b hbm => hb b (h.mem_iff.mpr hbm)⟩).symm
    | none =>
      cases hs2 : stepEq l2 i with
      | none => rfl
      | some c =>
        obtain ⟨ha, hb⟩ := (stepEq_eq_some_iff l2 i c hne2).mp hs2
        have h1 : stepEq (b0 :: r) i = some c :=
          (stepEq_eq_some_iff (b0 :: r) i c hne1).mpr
            ⟨fun b hbm => ha b (h.mem_iff.mp hbm),
             fun b hbm => hb b (h.mem_iff.mp hbm)⟩
        rw [h1] at hs1
        cases hs1

theorem stepEq_lt (bss : List (List Byte)) (i : Nat) (c : Byte)
    (h : stepEq bss i = some c) : i < (bss.headD []).length := by
  cases bss with
  | nil => cases h
  | cons b0 rest =>
    unfold stepEq at h
    dsimp only at h
    cases hg : b0.get? i with
    | none => rw [hg] at h; cases h
    | some cur =>
      obtain ⟨hi0, _⟩ := List.get?_eq_some.mp hg
      exact hi0

theorem splitPrefixLoop_fuel (bss : List (List Byte)) :
    ∀ F1 F2 i, (bss.headD []).length + 1 - i ≤ F1 →
      (bss.headD []).length + 1 - i ≤ F2 →
      splitPrefixLoop bss i F1 = splitPrefixLoop bss i F2 := by
  intro F1
  induction F1 with
  | zero =>
    intro F2 i h1 _
    have hn : stepEq bss i = none := by
      cases hs : stepEq bss i with
      | none => rfl
      | some c => have := stepEq_lt bss i c hs; omega
    cases F2 with
    | zero => rfl
    | succ F2 => simp only [splitPrefixLoop, hn]
  | succ F1 ih =>
    intro F2 i h1 h2
    cases F2 with
    | zero =>
      have hn : stepEq bss i = none := by
        cases hs : stepEq bss i with
        | none => rfl
        | some c => have := stepEq_lt bss i c hs; omega
      simp only [splitPrefixLoop, hn]
    | succ F2 =>
      simp only [splitPrefixLoop]
      cases hs : stepEq bss i with
      | none => rfl
      | some c =>
        have hlt := stepEq_lt bss i c hs
        rw [ih F2 (i + 1) (by omega) (by omega)]

theorem splitPrefixLoop_congr (l1 l2 : List (List Byte))
    (hstep : ∀ j, stepEq l1 j = stepEq l2 j) :
    ∀ F i, splitPrefixLoop l1 i F = splitPrefixLoop l2 i F := by
  intro F
  induction F with
  | zero => intro i; rfl
  | succ F ih =>
    intro i
    simp only [splitPrefixLoop, hstep i]
    cases hs : stepEq l2 i with
    | none => rfl
    | some c => rw [ih (i + 1)]

theorem stepEq_none_of_head_nil (b0 : List Byte) (r : List (List Byte))
    (h0 : b0.length = 0) : stepEq (b0 :: r) 0 = none := by
  unfold stepEq
  dsimp only
  have hg : b0.get? 0 = none := by
    rw [List.get?_eq_none]
    omega
  rw [hg]

theorem splitPrefix_perm (l1 l2 : List (List Byte)) (h : l1.Perm l2)
    (hlen : 2 ≤ l1.length) :
    (splitPrefix l1).1 = (splitPrefix l2).1 ∧
      (splitPrefix l1).2.Perm (splitPrefix l2).2 := by
  have hlen2 : l2.length = l1.length := h.length_eq.symm
  have hne1 : l1 ≠ [] := by
    intro hh; rw [hh] at hlen; simp at hlen
  have hne2 : l2 ≠ [] := by
    intro hh; rw [hh] at hlen2; rw [← hlen2] at hlen; simp at hlen
  have hstep := stepEq_perm l1 l2 h
  have hl1ne0 : ¬(l1.length = 0) := by omega
  have hl1ne1 : ¬(l1.length = 1) := by omega
  have hl2ne0 : ¬(l2.length = 0) := by omega
  have hl2ne1 : ¬(l2.length = 1) := by omega
  unfold splitPrefix
  by_cases h01 : (l1.headD []).length = 0 <;>
    by_cases h02 : (l2.headD []).length = 0
  · rw [if_pos (by rw [h01]; simp), if_pos (by rw [h02]; simp)]
    exact ⟨rfl, h⟩
  · -- l1 head empty, l2 head not: l2 scan stops at column 0
    rw [if_pos (by rw [h01]; simp)]
    rw [if_neg (by simp only [Bool.or_eq_true, decide_eq_true_eq]; push_neg; exact ⟨hl2ne0, h02⟩)]
    rw [if_neg hl2ne1]
    have hn1 : stepEq l1 0 = none := by
      cases hl1 : l1 with
      | nil => exact absurd hl1 hne1
      | cons b0 r =>
        apply stepEq_none_of_head_nil
        rw [hl1] at h01
        simpa using h01
    have hn2 : stepEq l2 0 = none := by rw [← hstep 0]; exact hn1
    dsimp only
    rw [show splitPrefixLoop l2 0 ((l2.headD []).length + 1) = [] by
      simp only [splitPrefixLoop, hn2]]
    refine ⟨rfl, ?_⟩
    simp only [List.length_nil, List.drop_zero]
    simpa using h
  · -- symmetric: l2 head empty, l1 head not
    rw [if_neg (by simp only [Bool.or_eq_true, decide_eq_true_eq]; push_neg; exact ⟨hl1ne0, h01⟩)]
    rw [if_neg hl1ne1]
    rw [if_pos (by rw [h02]; simp)]
    have hn2 : stepEq l2 0 = none := by
      cases hl2 : l2 with
      | nil => exact absurd hl2 hne2
      | cons b0 r =>
        apply stepEq_none_of_head_nil
        rw [hl2] at h02
        simpa using h02
    have hn1 : stepEq l1 0 = none := by rw [hstep 0]; exact hn2
    dsimp only
    rw [show splitPrefixLoop l1 0 ((l1.headD []).length + 1) = [] by
      simp only [splitPrefixLoop, hn1]]
    refine ⟨rfl, ?_⟩
    simp only [List.length_nil, List.drop_zero]
    simpa using h
  · -- both heads nonempty: the scan loops agree
    rw [if_neg (by simp only [Bool.or_eq_true, decide_eq_true_eq]; push_neg; exact ⟨hl1ne0, h01⟩)]
    rw [if_neg hl1ne1]
    rw [if_neg (by simp only [Bool.or_eq_true, decide_eq_true_eq]; push_neg; exact ⟨hl2ne0, h02⟩)]
    rw [if_neg hl2ne1]
    dsimp only
    have hp : splitPrefixLoop l1 0 ((l1.headD []).length + 1) =
        splitPrefixLoop l2 0 ((l2.headD []).length + 1) := by
      rw [splitPrefixLoop_fuel l1 ((l1.headD []).length + 1)
        (max (l1.headD []).length (l2.headD []).length + 1) 0 (by omega) (by omega)]
      rw [splitPrefixLoop_congr l1 l2 hstep]
      rw [splitPrefixLoop_fuel l2
        (max (l1.headD []).length (l2.headD []).length + 1)
        ((l2.headD []).length + 1) 0 (by omega) (by omega)]
    rw [hp]
    exact ⟨rfl, h.map _⟩

theorem group_perm (c : Byte) (l1 l2 : List (List Byte)) (h : l1.Perm l2) :
    (group c l1).Perm (group c l2) := by
  unfold group
  exact (h.filter (fun s => s.head? == some c)).map List.tail

theorem any_perm (l1 l2 : List (List Byte)) (h : l1.Perm l2)
    (f : List Byte → Bool) : l1.any f = l2.any f := by
  cases h2 : l2.any f with
  | true =>
    obtain ⟨x, hx, hfx⟩ := List.any_eq_true.mp h2
    exact List.any_eq_true.mpr ⟨x, h.mem_iff.mpr hx, hfx⟩
  | false =>
    cases h1 : l1.any f with
    | false => rfl
    | true =>
      obtain ⟨x, hx, hfx⟩ := List.any_eq_true.mp h1
      have := List.any_eq_true.mpr ⟨x, h.mem_iff.mp hx, hfx⟩
      rw [h2] at this
      cases this

theorem firstKeys_perm (l1 l2 : List (List Byte)) (h : l1.Perm l2) :
    (firstKeys l1).Perm (firstKeys l2) :=
  (h.filterMap List.head?).dedup

theorem lookupA_map_self (c : Byte) (f : Byte → PTNode) :
    ∀ keys : List Byte,
      lookupA c (keys.map (fun k => (k, f k))) =
        if c ∈ keys then some (f c) else none := by
  intro keys
  induction keys with
  | nil => simp [lookupA]
  | cons k ks ih =>
    simp only [List.map_cons, lookupA]
    by_cases hk : k = c
    · subst hk
      rw [if_pos rfl, if_pos (List.mem_cons_self _ _)]
    · rw [if_neg hk, ih]
      by_cases hm : c ∈ ks
      · rw [if_pos hm, if_pos (List.mem_cons_of_mem _ hm)]
      · rw [if_neg hm, if_neg ?_]
        intro hcc
        rcases List.mem_cons.mp hcc with hcc | hcc
        · exact hk hcc.symm
        · exact hm hcc

theorem newNodeF_perm : ∀ (F : Nat) (l1 l2 : List (List Byte)), l1.Perm l2 →
    PTEquiv (newNodeF F l1) (newNodeF F l2) := by
  intro F
  induction F with
  | zero =>
    intro l1 l2 _
    exact PTEquiv.mk [] false [] [] (fun c => rfl) (fun c x y hx _ => by cases hx)
  | succ F ih =>
    intro l1 l2 h
    have hlen : l2.length = l1.length := h.length_eq.symm
    by_cases h0 : l1.length = 0
    · have h0' : l1 = [] := List.length_eq_zero.mp h0
      subst h0'
      rw [List.nil_perm] at h
      subst h
      exact PTEquiv.mk [] true [] [] (fun c => rfl) (fun c x y hx _ => by cases hx)
    · by_cases h1 : l1.length = 1
      · obtain ⟨a, ha⟩ := List.length_eq_one.mp h1
        subst ha
        have h2 : l2 = [a] := (List.perm_singleton).mp h.symm
        subst h2
        exact PTEquiv.mk _ _ [] [] (fun c => rfl) (fun c x y hx _ => by cases hx)
      · -- the general branch
        have hge : 2 ≤ l1.length := by omega
        obtain ⟨hpfx, hrest⟩ := splitPrefix_perm l1 l2 h hge
        have hterm : (splitPrefix l1).2.any List.isEmpty =
            (splitPrefix l2).2.any List.isEmpty :=
          any_perm _ _ hrest List.isEmpty
        have hkeys := firstKeys_perm _ _ hrest
        simp only [newNodeF, if_neg h0, if_neg h1,
          if_neg (by omega : ¬(l2.length = 0)), if_neg (by omega : ¬(l2.length = 1))]
        rw [← hpfx, ← hterm]
        refine PTEquiv.mk _ _ _ _ ?_ ?_
        · intro c
          rw [lookupA_map_self c _ (firstKeys (splitPrefix l1).2),
              lookupA_map_self c _ (firstKeys (splitPrefix l2).2)]
          by_cases hm : c ∈ firstKeys (splitPrefix l1).2
          · rw [if_pos hm, if_pos (hkeys.mem_iff.mp hm)]
            rfl
          · rw [if_neg hm, if_neg (fun hh => hm (hkeys.mem_iff.mpr hh))]
        · intro c x y hx hy
          rw [lookupA_map_self c _ (firstKeys (splitPrefix l1).2)] at hx
          rw [lookupA_map_self c _ (firstKeys (splitPrefix l2).2)] at hy
          by_cases hm : c ∈ firstKeys (splitPrefix l1).2
          · rw [if_pos hm] at hx
            rw [if_pos (hkeys.mem_iff.mp hm)] at hy
            obtain rfl : x = newNodeF F (group c (splitPrefix l1).2) :=
              (Option.some.inj hx).symm
            obtain rfl : y = newNodeF F (group c (splitPrefix l2).2) :=
              (Option.some.inj hy).symm
            exact ih _ _ (group_perm c _ _ hrest)
          · rw [if_neg hm] at hx
            cases hx

/-- C6: patricia construction is order-independent.  For any two orderings
of the same finite set of byte strings, newPatriciaTree yields structurally
equivalent trees: same node prefixes, same terminal flags, and the same
child-edge map at every byte of every node (and the same scratch-buffer
length). -/
theorem c6_order_independent (l1 l2 : List (List Byte)) (h : l1.Perm l2) :
    PTEquiv (newPatriciaTree l1).root (newPatriciaTree l2).root ∧
    (newPatriciaTree l1).bufLen = (newPatriciaTree l2).bufLen := by
  constructor
  · show PTEquiv (newNode l1) (newNode l2)
    unfold newNode
    rw [measureStrs_perm l1 l2 h]
    exact newNodeF_perm _ l1 l2 h
  · unfold newPatriciaTree
    dsimp only
    rw [h.foldl_eq' (fun x _ y _ z => by split_ifs <;> omega) 0]

theorem c6_order_independent_witness :
    ([strBytes "GET ", strBytes "POST", strBytes "PUT "].Perm
      [strBytes "PUT ", strBytes "GET ", strBytes "POST"]) ∧
    (PTEquiv
      (newPatriciaTree [strBytes "GET ", strBytes "POST", strBytes "PUT "]).root
      (newPatriciaTree [strBytes "PUT ", strBytes "GET ", strBytes "POST"]).root ∧
     (newPatriciaTree [strBytes "GET ", strBytes "POST", strBytes "PUT "]).bufLen =
      (newPatriciaTree [strBytes "PUT ", strBytes "GET ", strBytes "POST"]).bufLen) :=
  ⟨by decide,
   c6_order_independent [strBytes "GET ", strBytes "POST", strBytes "PUT "]
     [strBytes "PUT ", strBytes "GET ", strBytes "POST"] (by decide)⟩

theorem measure_group_le (c : Byte) :
    ∀ L : List (List Byte), measureStrs (group c L) ≤ measureStrs L := by
  intro L
  induction L with
  | nil => exact le_refl _
  | cons s t ih =>
    unfold group at ih ⊢
    cases hs : (s.head? == some c) with
    | true =>
      simp only [List.filter_cons, hs, if_true, List.map_cons]
      unfold measureStrs at ih ⊢
      simp only [List.map_cons, List.sum_cons]
      have hlen := List.length_tail s
      omega
    | false =>
      simp only [List.filter_cons, hs, Bool.false_eq_true, if_false]
      unfold measureStrs at ih ⊢
      simp only [List.map_cons, List.sum_cons]
      omega

theorem measure_group_lt (c : Byte) (L : List (List Byte)) (hne : L ≠ []) :
    measureStrs (group c L) < measureStrs L := by
  cases L with
  | nil => exact absurd rfl hne
  | cons s t =>
    have ht := measure_group_le c t
    unfold group at ht ⊢
    cases hs : (s.head? == some c) with
    | true =>
      simp only [List.filter_cons, hs, if_true, List.map_cons]
      have hsne : s ≠ [] := by
        intro hh
        rw [hh] at hs
        simp at hs
      have hlen : s.tail.length + 1 = s.length := by
        cases s with
        | nil => exact absurd rfl hsne
        | cons a r => simp
      unfold measureStrs at ht ⊢
      simp only [List.map_cons, List.sum_cons]
      omega
    | false =>
      simp only [List.filter_cons, hs, Bool.false_eq_true, if_false]
      unfold measureStrs at ht ⊢
      simp only [List.map_cons, List.sum_cons]
      omega

theorem measure_drop_le (k : Nat) :
    ∀ L : List (List Byte), measureStrs (L.map (fun b => b.drop k)) ≤ measureStrs L := by
  intro L
  induction L with
  | nil => exact le_refl _
  | cons s t ih =>
    unfold measureStrs at ih ⊢
    simp only [List.map_cons, List.sum_cons]
    have := List.length_drop k s
    omega

theorem measure_splitPrefix_le (strs : List (List Byte)) :
    measureStrs (splitPrefix strs).2 ≤ measureStrs strs := by
  unfold splitPrefix
  split
  · exact le_refl _
  · split
    · next h1 h2 =>
      obtain ⟨a, ha⟩ := List.length_eq_one.mp h2
      subst ha
      unfold measureStrs
      simp
    · exact measure_drop_le _ _

theorem splitPrefix_ne_nil (strs : List (List Byte)) (hne : strs ≠ []) :
    (splitPrefix strs).2 ≠ [] := by
  unfold splitPrefix
  split
  · exact hne
  · split
    · simp
    · simpa using hne

theorem newNodeF_fuel : ∀ (F1 F2 : Nat) (strs : List (List Byte)),
    measureStrs strs < F1 → measureStrs strs < F2 →
    newNodeF F1 strs = newNodeF F2 strs := by
  intro F1
  induction F1 with
  | zero => intro F2 strs h1 _; omega
  | succ F1 ih =>
    intro F2 strs h1 h2
    cases F2 with
    | zero => omega
    | succ F2 =>
      simp only [newNodeF]
      by_cases h0 : strs.length = 0
      · rw [if_pos h0, if_pos h0]
      · rw [if_neg h0, if_neg h0]
        by_cases hone : strs.length = 1
        · rw [if_pos hone, if_pos hone]
        · rw [if_neg hone, if_neg hone]
          have hne : strs ≠ [] := by
            intro hh; rw [hh] at h0; simp at h0
          have hsp := measure_splitPrefix_le strs
          have hspne := splitPrefix_ne_nil strs hne
          congr 1
          apply List.map_congr_left
          intro k _
          have hg := measure_group_lt k (splitPrefix strs).2 hspne
          rw [ih F2 (group k (splitPrefix strs).2) (by omega) (by omega)]

/-- The fuel newNode supplies is always sufficient: any larger fuel builds
the same tree, so the fuel pattern is invisible in the result. -/
theorem newNode_fuel_sufficient (strs : List (List Byte)) (F : Nat)
    (h : measureStrs strs < F) : newNodeF F strs = newNode strs :=
  newNodeF_fuel F (measureStrs strs + 1) strs h (by omega)

theorem ptMatchF_fuel : ∀ (F1 F2 : Nat) (n : PTNode) (b : List Byte) (p : Bool),
    b.length < F1 → b.length < F2 → ptMatchF F1 n b p = ptMatchF F2 n b p := by
  intro F1
  induction F1 with
  | zero => intro F2 n b p h1 _; omega
  | succ F1 ih =>
    intro F2 n b p h1 h2
    cases F2 with
    | zero => omega
    | succ F2 =>
      simp only [ptMatchF]
      set l := if n.pfx.length > b.length then b.length else n.pfx.length with hl
      by_cases hA : (decide (n.pfx.length > 0) && !(b.take l == n.pfx)) = true
      · rw [if_pos hA, if_pos hA]
      · rw [if_neg hA, if_neg hA]
        by_cases hB : (n.terminal && (p || n.pfx.length == b.length)) = true
        · rw [if_pos hB, if_pos hB]
        · rw [if_neg hB, if_neg hB]
          cases hg : b.get? l with
          | none => rfl
          | some c =>
            dsimp only
            cases lookupA c n.next with
            | none => rfl
            | some nextN =>
              dsimp only
              obtain ⟨hlt, _⟩ := List.get?_eq_some.mp hg
              have hne2 : (l == b.length) = false := by
                simp only [beq_eq_false_iff_ne]
                omega
              rw [hne2]
              simp only [Bool.false_eq_true, if_false]
              apply ih F2 nextN (b.drop (l + 1)) p
              · rw [List.length_drop]
                omega
              · rw [List.length_drop]
                omega

/-- The fuel ptMatch supplies is always sufficient: any larger fuel walks
the trie to the same answer. -/
theorem ptMatch_fuel_sufficient (n : PTNode) (b : List Byte) (p : Bool) (F : Nat)
    (h : b.length < F) : ptMatchF F n b p = ptMatch n b p :=
  ptMatchF_fuel F (b.length + 1) n b p h (by omega)

end CmuxV
